import Mathlib

/-!
Verification of the stellaris wasm miner core (`src/wasm-miner/src/lib.rs`).

The Rust source is shallowly embedded: bytes are `Nat` values kept below 256,
32-bit words are `Nat` with explicit `% 2^32`, Rust `f64` difficulty values are
modelled as exact rationals `ℚ` with the cast/floor/ceil semantics of the
source spelled out (`ratTrunc`, `ratCeil`, `usizeCast`, `u16Cast`) and the
rounding of the `f64` product `difficulty * 10.0` modelled bit-precisely
(`roundF64`), and the fallible entry points return `Except String _`
mirroring the `Result` values of the source — wrapped in `Option` for
`mine_range`, whose chunk byte slice can panic (`none`) on a byte index that
is not a character boundary.  SHA-256 is embedded in full so the mining loop
is executable.
-/

/-- Word size for 32-bit arithmetic. -/
def w32 : Nat := 4294967296

/-- Addition modulo 2^32, the wrapping addition of SHA-256. -/
def add32 (a b : Nat) : Nat := (a + b) % w32

/-- Right rotation of a 32-bit word. -/
def rotr32 (x k : Nat) : Nat := ((x >>> k) ||| (x <<< (32 - k))) % w32

/-- Three-way xor. -/
def xor3 (a b c : Nat) : Nat := Nat.xor (Nat.xor a b) c

/-- The SHA-256 choice function `Ch(x,y,z) = (x ∧ y) ⊕ (¬x ∧ z)`. -/
def shaCh (x y z : Nat) : Nat := Nat.xor (Nat.land x y) (Nat.land (Nat.xor x 4294967295) z)

/-- The SHA-256 majority function. -/
def shaMaj (x y z : Nat) : Nat := xor3 (Nat.land x y) (Nat.land x z) (Nat.land y z)

/-- Big sigma-0 of SHA-256. -/
def bsig0 (x : Nat) : Nat := xor3 (rotr32 x 2) (rotr32 x 13) (rotr32 x 22)

/-- Big sigma-1 of SHA-256. -/
def bsig1 (x : Nat) : Nat := xor3 (rotr32 x 6) (rotr32 x 11) (rotr32 x 25)

/-- Small sigma-0 of SHA-256. -/
def ssig0 (x : Nat) : Nat := xor3 (rotr32 x 7) (rotr32 x 18) (x >>> 3)

/-- Small sigma-1 of SHA-256. -/
def ssig1 (x : Nat) : Nat := xor3 (rotr32 x 17) (rotr32 x 19) (x >>> 10)

/-- The 64 SHA-256 round constants. -/
def shaK : Array Nat := #[
  1116352408, 1899447441, 3049323471, 3921009573, 961987163, 1508970993,
  2453635748, 2870763221, 3624381080, 310598401, 607225278, 1426881987,
  1925078388, 2162078206, 2614888103, 3248222580, 3835390401, 4022224774,
  264347078, 604807628, 770255983, 1249150122, 1555081692, 1996064986,
  2554220882, 2821834349, 2952996808, 3210313671, 3336571891, 3584528711,
  113926993, 338241895, 666307205, 773529912, 1294757372, 1396182291,
  1695183700, 1986661051, 2177026350, 2456956037, 2730485921, 2820302411,
  3259730800, 3345764771, 3516065817, 3600352804, 4094571909, 275423344,
  430227734, 506948616, 659060556, 883997877, 958139571, 1322822218,
  1537002063, 1747873779, 1955562222, 2024104815, 2227730452, 2361852424,
  2428436474, 2756734187, 3204031479, 3329325298]

/-- The SHA-256 initial hash state. -/
def shaH0 : List Nat :=
  [1779033703, 3144134277, 1013904242, 2773480762,
   1359893119, 2600822924, 528734635, 1541459225]

/-- Message padding of SHA-256: append `0x80`, zero bytes up to 56 mod 64, then
the bit length as 8 bytes big-endian. -/
def padMsg (msg : List Nat) : List Nat :=
  let len := msg.length
  let zeros := (119 - len % 64) % 64
  let bitLen := 8 * len
  msg ++ 128 :: List.replicate zeros 0 ++
    [bitLen / 2^56 % 256, bitLen / 2^48 % 256, bitLen / 2^40 % 256, bitLen / 2^32 % 256,
     bitLen / 2^24 % 256, bitLen / 2^16 % 256, bitLen / 2^8 % 256, bitLen % 256]

/-- Group bytes into big-endian 32-bit words. -/
def wordsBE : List Nat → List Nat
  | a :: b :: c :: d :: rest => (a * 2^24 + b * 2^16 + c * 2^8 + d) :: wordsBE rest
  | _ => []

/-- Extend the 16 words of a block to the 64-entry message schedule. -/
def extendW (w : Array Nat) : Array Nat :=
  (List.range 48).foldl (fun w i =>
    w.push (add32 (add32 (ssig1 (w.getD (i+14) 0)) (w.getD (i+9) 0))
                  (add32 (ssig0 (w.getD (i+1) 0)) (w.getD i 0)))) w

/-- Working state of the SHA-256 compression function. -/
structure Sha8 where
  a : Nat
  b : Nat
  c : Nat
  d : Nat
  e : Nat
  f : Nat
  g : Nat
  h : Nat

/-- One round of the SHA-256 compression function. -/
def shaRound (kw : Nat) (wv : Nat) (s : Sha8) : Sha8 :=
  let t1 := add32 (add32 (add32 s.h (bsig1 s.e)) (add32 (shaCh s.e s.f s.g) kw)) wv
  let t2 := add32 (bsig0 s.a) (shaMaj s.a s.b s.c)
  ⟨add32 t1 t2, s.a, s.b, s.c, add32 s.d t1, s.e, s.f, s.g⟩

/-- Compress one 64-byte block into the running hash state. -/
def processBlock (hs : List Nat) (block : List Nat) : List Nat :=
  let w := extendW (Array.mk (wordsBE block))
  let i0 := hs.getD 0 0
  let i1 := hs.getD 1 0
  let i2 := hs.getD 2 0
  let i3 := hs.getD 3 0
  let i4 := hs.getD 4 0
  let i5 := hs.getD 5 0
  let i6 := hs.getD 6 0
  let i7 := hs.getD 7 0
  let s := (List.range 64).foldl (fun s i => shaRound (shaK.getD i 0) (w.getD i 0) s)
    ⟨i0, i1, i2, i3, i4, i5, i6, i7⟩
  [add32 i0 s.a, add32 i1 s.b, add32 i2 s.c, add32 i3 s.d,
   add32 i4 s.e, add32 i5 s.f, add32 i6 s.g, add32 i7 s.h]

/-- Fold the compression function over `n` consecutive 64-byte blocks. -/
def processN : Nat → List Nat → List Nat → List Nat
  | 0, hs, _ => hs
  | n+1, hs, msg => processN n (processBlock hs (msg.take 64)) (msg.drop 64)

/-- Byte serialisation (big-endian) of a 32-bit word. -/
def wordBytesBE (n : Nat) : List Nat := [n / 2^24 % 256, n / 2^16 % 256, n / 2^8 % 256, n % 256]

/-- SHA-256 of a byte sequence, as its 32 digest bytes.  Embeds the `sha256`
helper of the source (which delegates to the `sha2` crate). -/
def sha256 (msg : List Nat) : List Nat :=
  let padded := padMsg msg
  (processN (padded.length / 64) shaH0 padded).flatMap wordBytesBE

/-- The ordered hex alphabet used for encoding and for difficulty checking. -/
def hexCharset : List Char := ("0123456789abcdef").data

/-- Hex digit for a nibble. -/
def hexChar (n : Nat) : Char := hexCharset.getD n ('0')

/-- Lowercase hex encoding of a byte sequence, as in `hex::encode`. -/
def hexEncode (bs : List Nat) : String :=
  String.mk (bs.flatMap fun b => [hexChar (b / 16), hexChar (b % 16)])

/-- Value of one hex digit character, accepting both cases as `hex::decode` does. -/
def hexDigitVal (c : Char) : Option Nat :=
  if ('0') ≤ c ∧ c ≤ ('9') then some (c.toNat - 48)
  else if ('a') ≤ c ∧ c ≤ ('f') then some (c.toNat - 87)
  else if ('A') ≤ c ∧ c ≤ ('F') then some (c.toNat - 55)
  else none

/-- Hex decoding of a character list: fails on odd length or a non-hex digit. -/
def hexDecodeList : List Char → Option (List Nat)
  | [] => some []
  | [_] => none
  | c1 :: c2 :: rest =>
    match hexDigitVal c1, hexDigitVal c2, hexDecodeList rest with
    | some hi, some lo, some tail => some ((16 * hi + lo) :: tail)
    | _, _, _ => none

/-- Hex decoding of a string, as in `hex::decode`: any even-length string of
hex digits decodes, with no length requirement. -/
def hexDecode (s : String) : Option (List Nat) := hexDecodeList s.data

/-- The bitcoin base58 alphabet used by the `bs58` crate's default decoder. -/
def base58Alphabet : List Char :=
  ("123456789ABCDEFGHJKLMNPQRSTUVWXYZabcdefghijkmnopqrstuvwxyz").data

/-- Index of a character in the base58 alphabet. -/
def base58Index (c : Char) : Option Nat := base58Alphabet.indexOf? c

/-- Big-endian base-256 digits of a natural number (empty for zero). -/
def natBytesBE (n : Nat) : List Nat :=
  if h : n = 0 then [] else
    have : n / 256 < n := Nat.div_lt_self (Nat.pos_of_ne_zero h) (by omega)
    natBytesBE (n / 256) ++ [n % 256]
termination_by n

/-- Base58 decoding as done by `bs58::decode(..).into_vec()`: fails on any
character outside the alphabet; each leading `1` contributes a zero byte. -/
def base58Decode (s : String) : Option (List Nat) :=
  match s.data.mapM base58Index with
  | none => none
  | some digits =>
    some (List.replicate (s.data.takeWhile (fun c => c = ('1'))).length 0 ++
      natBytesBE (digits.foldl (fun acc d => acc * 58 + d) 0))

/-- Address decoding of the source's `string_to_bytes`: hex first, then
base58, else the `Invalid address format` error. -/
def string_to_bytes (address : String) : Except String (List Nat) :=
  match hexDecode address with
  | some bytes => .ok bytes
  | none =>
    match base58Decode address with
    | some bytes => .ok bytes
    | none => .error ("Invalid address format")

/-- Floor of a rational, as an Int, through the computable `Rat.floor`. -/
def ratFloor (q : ℚ) : ℤ := Rat.floor q

/-- Ceiling of a rational, computably. -/
def ratCeil (q : ℚ) : ℤ := -(ratFloor (-q))

/-- Truncation toward zero, the rounding Rust applies when casting an `f64`
to an unsigned integer (before clamping). -/
def ratTrunc (q : ℚ) : ℤ := if q < 0 then -(ratFloor (-q)) else ratFloor q

/-- Rust `as usize` cast of a truncated value on the wasm32 target: clamps to
`[0, 2^32-1]`. -/
def usizeCast (z : ℤ) : Nat := min z.toNat 4294967295

/-- Rust `f64 as u16` cast: truncates toward zero and clamps to `[0, 65535]`. -/
def u16Cast (q : ℚ) : Nat := min (ratTrunc q).toNat 65535

/-- Rust `f64 % 1.0`, the exact fractional part with the sign of the operand. -/
def rem1 (q : ℚ) : ℚ := q - (ratTrunc q : ℤ)

/-- Number of bytes of the UTF-8 encoding of one character. -/
def charUtf8Size (c : Char) : Nat :=
  if c.toNat < 128 then 1 else if c.toNat < 2048 then 2 else if c.toNat < 65536 then 3 else 4

/-- Byte length of a string's UTF-8 encoding (Rust `str::len`). -/
def utf8Length : List Char → Nat
  | [] => 0
  | c :: cs => charUtf8Size c + utf8Length cs

/-- Rust byte slice `&s[k..]`: `some` of the remaining characters when byte
index `k` falls on a character boundary, `none` (a panic) otherwise. -/
def sliceFromByte : List Char → Nat → Option (List Char)
  | l, 0 => some l
  | [], _+1 => none
  | c :: cs, k+1 =>
    if charUtf8Size c ≤ k+1 then sliceFromByte cs (k+1 - charUtf8Size c) else none

/-- Fuel-driven binary logarithm (structural recursion so it evaluates). -/
def log2F : Nat → Nat → Nat
  | 0, _ => 0
  | fuel+1, n => if 2 ≤ n then log2F fuel (n / 2) + 1 else 0

/-- Floor of the binary logarithm of a natural number. -/
def natLog2 (n : Nat) : Nat := log2F n n

/-- Floor of the binary logarithm of the positive rational `a / b`: the unique
`e` with `2^e ≤ a/b < 2^(e+1)`. -/
def floorLog2 (a b : Nat) : ℤ :=
  if b ≤ a then (natLog2 (a / b) : ℤ)
  else if a * 2 ^ natLog2 (b / a) = b then -(natLog2 (b / a) : ℤ)
  else -(natLog2 (b / a) : ℤ) - 1

/-- Round a rational to an integer, half to even (the IEEE-754 tie rule). -/
def roundHalfEven (n : ℚ) : ℤ :=
  let fl := ratFloor n
  if n - (fl : ℤ) < 1/2 then fl
  else if (1/2 : ℚ) < n - (fl : ℤ) then fl + 1
  else if fl % 2 = 0 then fl else fl + 1

/-- Round a positive rational to the nearest `f64`: keep 53 significant bits
(granularity clamped at `2^-1074` for subnormals), ties to even.  An overflow
rounds to a value at or above `2^1024`, which stands for the `f64` infinity —
the saturating integer casts downstream treat the two identically. -/
def roundF64Pos (q : ℚ) : ℚ :=
  let e := floorLog2 q.num.toNat q.den
  let u : ℤ := max (e - 52) (-1074)
  if u ≤ 0 then
    (roundHalfEven (q * ((2 ^ (-u).toNat : ℕ) : ℚ)) : ℤ) / ((2 ^ (-u).toNat : ℕ) : ℚ)
  else
    (roundHalfEven (q / ((2 ^ u.toNat : ℕ) : ℚ)) : ℤ) * ((2 ^ u.toNat : ℕ) : ℚ)

/-- Correctly rounded `f64` value of a rational: the result of an `f64`
arithmetic operation whose exact value is `q`.  Used to model the product
`difficulty * 10.0`, which rounds before the `as u16` cast. -/
def roundF64 (q : ℚ) : ℚ :=
  if q = 0 then 0
  else if q < 0 then -(roundF64Pos (-q))
  else roundF64Pos q

/-- Byte-wise (= character-wise, for the ASCII strings this code compares)
strict lexicographic comparison, as Rust's `String` ordering. -/
def charListLt : List Char → List Char → Bool
  | [], [] => false
  | [], _ :: _ => true
  | _ :: _, [] => false
  | a :: as, b :: bs =>
    if a.toNat < b.toNat then true
    else if b.toNat < a.toNat then false
    else charListLt as bs

/-- Strict comparison on strings (`hash_hex < best_hash` in the source). -/
def strLt (a b : String) : Bool := charListLt a.data b.data

/-- Rust `str::starts_with` on valid UTF-8 equals character-prefix testing. -/
def strStartsWith (s p : String) : Bool := p.data.isPrefixOf s.data

/-- Difficulty predicate of the source's `check_difficulty`: the hash must
start with `chunk`; a positive fractional part further restricts the character
at position `floor(difficulty)` to the first `ceil(16*(1-frac))` hex digits. -/
def check_difficulty (hash_hex chunk : String) (difficulty : ℚ) : Bool :=
  if strStartsWith hash_hex chunk then
    let decimal := rem1 difficulty
    if 0 < decimal then
      let count := usizeCast (ratCeil (16 * (1 - decimal)))
      let valid_chars := hexCharset.take count
      let idifficulty := usizeCast (ratTrunc difficulty)
      match hash_hex.data[idifficulty]? with
      | some c => valid_chars.contains c
      | none => false
    else true
  else false

/-- Result record of a search, mirroring the source's `MinerResult`. -/
structure MinerResult where
  found : Bool
  nonce : Nat
  hash : String
  hashes_computed : Nat
  best_nonce : Nat
  best_hash : String
deriving DecidableEq

/-- Little-endian serialisation of a `u32` (`to_le_bytes`). -/
def leBytes4 (n : Nat) : List Nat := [n % 256, n / 256 % 256, n / 65536 % 256, n / 16777216 % 256]

/-- Little-endian serialisation of a `u16` (`to_le_bytes`). -/
def leBytes2 (n : Nat) : List Nat := [n % 256, n / 256 % 256]

/-- Saturating `u32` addition (`saturating_add`). -/
def satAdd32 (a b : Nat) : Nat := min (a + b) 4294967295

/-- Upper bound of the nonce loop: `min(nonce_end, nonce_start.saturating_add(max_hashes))`. -/
def searchEnd (nonce_end nonce_start max_hashes : Nat) : Nat :=
  min nonce_end (satAdd32 nonce_start max_hashes)

/-- The difficulty chunk in the all-ASCII case (every hex `previous_hash`):
the last `difficulty as usize` characters of `previous_hash`, with saturating
subtraction of the start index.  `chunkOfB` below is the faithful byte-level
slice; `chunkOfB_of_hex` shows they agree whenever `previous_hash` hex-decodes. -/
def chunkOf (previous_hash : String) (difficulty : ℚ) : String :=
  String.mk (previous_hash.data.drop
    (previous_hash.data.length - usizeCast (ratTrunc difficulty)))

/-- Difficulty chunk of `mine_range` (line 119 of the source): the byte slice
`&previous_hash[len().saturating_sub(difficulty as usize)..]`.  The byte index
may fall inside a multi-byte character, in which case the slice panics —
modelled as `none`. -/
def chunkOfB (previous_hash : String) (difficulty : ℚ) : Option String :=
  (sliceFromByte previous_hash.data
    (utf8Length previous_hash.data - usizeCast (ratTrunc difficulty))).map String.mk

/-- Per-template block prefix built once by `mine_range` (lines 121-145 of the
source): optional version byte, previous hash bytes, address bytes, merkle
bytes, little-endian timestamp, little-endian scaled difficulty. -/
def minePfx (address_bytes prev_bytes merkle_bytes : List Nat) (timestamp : Nat)
    (difficulty : ℚ) : List Nat :=
  (if address_bytes.length = 33 then [2] else []) ++
    prev_bytes ++ address_bytes ++ merkle_bytes ++
    leBytes4 timestamp ++ leBytes2 (u16Cast (roundF64 (difficulty * 10)))

/-- Hex digest hashed for one candidate nonce: the prefix with the little-endian
nonce appended. -/
def digestOf (pfx : List Nat) (nonce : Nat) : String :=
  hexEncode (sha256 (pfx ++ leBytes4 nonce))

/-- The sentinel `"f".repeat(64)` initialising `best_hash`. -/
def fRepeat : String := String.mk (List.replicate 64 ('f'))

/-- Mining loop of `mine_range` (lines 154-182): hash each nonce, count it,
track the smallest digest, return early when the difficulty predicate holds.
The fuel is the size of the range `nonce_start..end`. -/
def mineLoop (pfx : List Nat) (chunk : String) (difficulty : ℚ) :
    String → Nat → Nat → Nat → Nat → MinerResult
  | best_hash, best_nonce, hashes_computed, _, 0 =>
    ⟨false, best_nonce, best_hash, hashes_computed, best_nonce, best_hash⟩
  | best_hash, best_nonce, hashes_computed, nonce, fuel+1 =>
    let hash_hex := digestOf pfx nonce
    let hc := hashes_computed + 1
    let bh := if strLt hash_hex best_hash then hash_hex else best_hash
    let bn := if strLt hash_hex best_hash then nonce else best_nonce
    if check_difficulty hash_hex chunk difficulty then
      ⟨true, nonce, hash_hex, hc, bn, bh⟩
    else
      mineLoop pfx chunk difficulty bh bn hc (nonce+1) fuel

/-- The source's `mine_range` entry point.  `none` is the panic of the chunk
byte slice (which the source performs before the two hex decodes); `some` is
the returned `Result`. -/
def mine_range (previous_hash pool_address merkle_root : String) (timestamp : Nat)
    (difficulty : ℚ) (nonce_start nonce_end max_hashes : Nat) :
    Option (Except String MinerResult) :=
  match string_to_bytes pool_address with
  | .error e => some (.error e)
  | .ok address_bytes =>
    match chunkOfB previous_hash difficulty with
    | none => none
    | some chunk =>
      match hexDecode previous_hash with
      | none => some (.error ("Invalid previous_hash"))
      | some prev_bytes =>
        match hexDecode merkle_root with
        | none => some (.error ("Invalid merkle_root"))
        | some merkle_bytes =>
          let pfx := minePfx address_bytes prev_bytes merkle_bytes timestamp difficulty
          some (.ok (mineLoop pfx chunk difficulty fRepeat nonce_start 0 nonce_start
            (searchEnd nonce_end nonce_start max_hashes - nonce_start)))

/-- Byte content built by the source's `build_block_content` (lines 208-235):
same layout as the mining prefix with the little-endian nonce appended. -/
def buildBlockBytes (previous_hash pool_address merkle_root : String)
    (timestamp : Nat) (difficulty : ℚ) (nonce : Nat) : Except String (List Nat) :=
  match string_to_bytes pool_address with
  | .error e => .error e
  | .ok address_bytes =>
    match hexDecode previous_hash with
    | none => .error ("Invalid previous_hash")
    | some prev_bytes =>
      match hexDecode merkle_root with
      | none => .error ("Invalid merkle_root")
      | some merkle_bytes =>
        .ok ((if address_bytes.length = 33 then [2] else []) ++
          prev_bytes ++ address_bytes ++ merkle_bytes ++
          leBytes4 timestamp ++ leBytes2 (u16Cast (roundF64 (difficulty * 10))) ++ leBytes4 nonce)

/-- The source's `build_block_content` entry point: the bytes, hex encoded. -/
def build_block_content (previous_hash pool_address merkle_root : String)
    (timestamp : Nat) (difficulty : ℚ) (nonce : Nat) : Except String String :=
  match buildBlockBytes previous_hash pool_address merkle_root timestamp difficulty nonce with
  | .error e => .error e
  | .ok bytes => .ok (hexEncode bytes)

/-- Modelled from the spec (section 4.3, Difficulty predicate): the predicate
`satisfies(hash_hex, chunk, difficulty)` as the spec words it, with
`decimal = difficulty - floor(difficulty)`, `count = ceil(16*(1-decimal))`,
`idx = floor(difficulty)`, membership of the character at `idx` in the first
`count` characters of the hex alphabet, and failure when `idx` is beyond the
string length. -/
def satisfiesSpec (hash_hex chunk : String) (difficulty : ℚ) : Bool :=
  if strStartsWith hash_hex chunk then
    let decimal : ℚ := difficulty - (⌊difficulty⌋ : ℤ)
    if decimal = 0 then true
    else
      let count := (⌈(16 : ℚ) * (1 - decimal)⌉).toNat
      let valid_chars := hexCharset.take count
      let idx := (⌊difficulty⌋).toNat
      match hash_hex.data[idx]? with
      | some c => valid_chars.contains c
      | none => false
  else false

/-- Heads of an unordered pair of comparisons: two characters with equal
codepoints are equal. -/
theorem charToNat_inj {a b : Char} (h : a.toNat = b.toNat) : a = b := by
  apply Char.ext
  apply UInt32.ext
  exact h

/-- The comparison is irreflexive. -/
theorem charListLt_irrefl : ∀ l : List Char, charListLt l l = false
  | [] => rfl
  | a :: as => by simp [charListLt, charListLt_irrefl as]

/-- The comparison is transitive. -/
theorem charListLt_trans : ∀ {a b c : List Char}, charListLt a b = true →
    charListLt b c = true → charListLt a c = true := by
  intro a
  induction a with
  | nil =>
    intro b c h1 h2
    cases b with
    | nil => simp [charListLt] at h1
    | cons x xs =>
      cases c with
      | nil => simp [charListLt] at h2
      | cons y ys => simp [charListLt]
  | cons x xs ih =>
    intro b c h1 h2
    cases b with
    | nil => simp [charListLt] at h1
    | cons y ys =>
      cases c with
      | nil => simp [charListLt] at h2
      | cons z zs =>
        simp only [charListLt] at h1 h2 ⊢
        split_ifs at h1 h2 ⊢ <;> try omega
        all_goals first
          | rfl
          | exact ih h1 h2

/-- The comparison is asymmetric. -/
theorem charListLt_asymm : ∀ {a b : List Char}, charListLt a b = true →
    charListLt b a = false := by
  intro a
  induction a with
  | nil =>
    intro b h
    cases b with
    | nil => simp [charListLt] at h
    | cons x xs => simp [charListLt]
  | cons x xs ih =>
    intro b h
    cases b with
    | nil => simp [charListLt] at h
    | cons y ys =>
      simp only [charListLt] at h ⊢
      split_ifs at h ⊢ <;> first
        | rfl
        | omega
        | simp at h
        | exact ih h

/-- Two lists neither of which is below the other are equal. -/
theorem charListLt_eq_of_not : ∀ {a b : List Char}, charListLt a b = false →
    charListLt b a = false → a = b := by
  intro a
  induction a with
  | nil =>
    intro b h1 _
    cases b with
    | nil => rfl
    | cons x xs => simp [charListLt] at h1
  | cons x xs ih =>
    intro b h1 h2
    cases b with
    | nil => simp [charListLt] at h2
    | cons y ys =>
      simp only [charListLt] at h1 h2
      split_ifs at h1 h2 <;> try omega
      have hx : x = y := charToNat_inj (by omega)
      rw [hx, ih h1 h2]

/-- Totality: a list not strictly above another is below it or equal to it. -/
theorem charListLt_total {a b : List Char} (h : charListLt b a = false) :
    charListLt a b = true ∨ a = b := by
  cases hab : charListLt a b with
  | true => exact Or.inl rfl
  | false => exact Or.inr (charListLt_eq_of_not hab h)

/-- Transitivity of the non-strict comparison. -/
theorem charListLt_le_trans {a b c : List Char} (h1 : charListLt b a = false)
    (h2 : charListLt c b = false) : charListLt c a = false := by
  rcases charListLt_total h1 with hab | hab
  · rcases charListLt_total h2 with hbc | hbc
    · exact charListLt_asymm (charListLt_trans hab hbc)
    · rw [← hbc]; exact charListLt_asymm hab
  · rw [hab]; exact h2

/-- String-level irreflexivity. -/
theorem strLt_irrefl (s : String) : strLt s s = false := charListLt_irrefl s.data

/-- String-level asymmetry. -/
theorem strLt_asymm {a b : String} (h : strLt a b = true) : strLt b a = false :=
  charListLt_asymm h

/-- String-level antisymmetry of the negated comparison. -/
theorem strLt_eq_of_not {a b : String} (h1 : strLt a b = false)
    (h2 : strLt b a = false) : a = b := by
  cases a
  cases b
  exact congrArg String.mk (charListLt_eq_of_not h1 h2)

/-- String-level transitivity of the non-strict comparison: if `a` is not above
`b` and `b` is not above `c`, then `c` is not below `a`. -/
theorem strLt_le_trans {a b c : String} (h1 : strLt b a = false)
    (h2 : strLt c b = false) : strLt c a = false :=
  charListLt_le_trans h1 h2

/-- Every character a hex encoding can produce has codepoint at most `'f'`. -/
theorem hexChar_toNat_le (n : Nat) : (hexChar n).toNat ≤ 102 := by
  by_cases h : n < 16
  · interval_cases n <;> decide
  · rw [hexChar, List.getD_eq_default]
    · decide
    · have h16 : hexCharset.length = 16 := by decide
      omega

/-- Characters of a hex encoding are bounded by `'f'`. -/
theorem hexEncode_chars_le (bs : List Nat) :
    ∀ c ∈ (hexEncode bs).data, c.toNat ≤ 102 := by
  intro c hc
  simp only [hexEncode, List.mem_flatMap] at hc
  obtain ⟨b, _, hb⟩ := hc
  simp only [List.mem_cons, List.not_mem_nil, or_false] at hb
  rcases hb with rfl | rfl <;> exact hexChar_toNat_le _

/-- A hex encoding has twice as many characters as bytes. -/
theorem hexEncode_length (bs : List Nat) :
    (hexEncode bs).data.length = 2 * bs.length := by
  induction bs with
  | nil => rfl
  | cons b bs ih =>
    simp only [hexEncode, List.flatMap_cons] at ih ⊢
    simp only [List.length_append, List.length_cons, List.length_nil] at ih ⊢
    omega

/-- The compression state keeps its eight words. -/
theorem processN_length : ∀ (n : Nat) (hs msg : List Nat), hs.length = 8 →
    (processN n hs msg).length = 8
  | 0, _, _, h => h
  | n+1, hs, msg, h => processN_length n _ _ (by simp [processBlock])

/-- Flat-mapping the word serialiser quadruples the length. -/
theorem flatMap_wordBytesBE_length (l : List Nat) :
    (l.flatMap wordBytesBE).length = 4 * l.length := by
  induction l with
  | nil => rfl
  | cons x xs ih =>
    simp only [List.flatMap_cons, List.length_append, ih, wordBytesBE]
    simp only [List.length_cons, List.length_nil]
    omega

/-- A SHA-256 digest is 32 bytes. -/
theorem sha256_length (msg : List Nat) : (sha256 msg).length = 32 := by
  have h8 : shaH0.length = 8 := by decide
  simp only [sha256, flatMap_wordBytesBE_length, processN_length _ _ _ h8]

/-- No string of at most 64 characters bounded by `'f'` exceeds the all-`f`
sentinel. -/
theorem repF_not_lt : ∀ (n : Nat) (l : List Char), l.length ≤ n →
    (∀ c ∈ l, c.toNat ≤ 102) → charListLt (List.replicate n ('f')) l = false := by
  intro n
  induction n with
  | zero =>
    intro l hl _
    have hnil : l = [] := List.length_eq_zero.mp (Nat.le_zero.mp hl)
    rw [hnil]
    rfl
  | succ n ih =>
    intro l hl hc
    cases l with
    | nil => rfl
    | cons c cs =>
      have hcle : c.toNat ≤ 102 := hc c (by simp)
      simp only [List.replicate_succ, charListLt]
      have h1 : ¬ (Char.toNat ('f') < c.toNat) := by
        change ¬ (102 < c.toNat)
        omega
      rw [if_neg h1]
      by_cases h2 : c.toNat < Char.toNat ('f')
      · rw [if_pos h2]
      · rw [if_neg h2]
        exact ih cs (by simpa using hl) (fun d hd => hc d (by simp [hd]))

/-- A digest of the mining loop never exceeds the sentinel. -/
theorem digest_not_gt (pfx : List Nat) (n : Nat) :
    strLt fRepeat (digestOf pfx n) = false := by
  have h1 : (digestOf pfx n).data.length ≤ 64 := by
    calc (digestOf pfx n).data.length = 2 * 32 := by rw [digestOf, hexEncode_length, sha256_length]
    _ ≤ 64 := by omega
  exact repF_not_lt 64 _ h1 (hexEncode_chars_le (sha256 (pfx ++ leBytes4 n)))

/-- Computable floor agrees with the mathematical floor. -/
theorem ratFloor_eq (q : ℚ) : ratFloor q = ⌊q⌋ := by
  rw [ratFloor, Rat.floor_def', Rat.floor_def]

/-- Computable ceiling agrees with the mathematical ceiling. -/
theorem ratCeil_eq (q : ℚ) : ratCeil q = ⌈q⌉ := by
  rw [ratCeil, ratFloor_eq, Int.floor_neg, neg_neg]

/-- On nonnegative rationals, truncation toward zero is the floor. -/
theorem ratTrunc_eq_floor {q : ℚ} (h : 0 ≤ q) : ratTrunc q = ⌊q⌋ := by
  rw [ratTrunc, if_neg (not_lt.mpr h), ratFloor_eq]

/-- On nonnegative rationals, `q % 1.0` is `q - ⌊q⌋`. -/
theorem rem1_eq {q : ℚ} (h : 0 ≤ q) : rem1 q = q - (⌊q⌋ : ℤ) := by
  rw [rem1, ratTrunc_eq_floor h]

/-- Half-even rounding of a nonnegative rational is nonnegative. -/
theorem roundHalfEven_nonneg {n : ℚ} (h : 0 ≤ n) : 0 ≤ roundHalfEven n := by
  have hfl : (0 : ℤ) ≤ ratFloor n := by
    rw [ratFloor_eq]
    exact Int.floor_nonneg.mpr h
  rw [roundHalfEven]
  split_ifs <;> omega

/-- The rounded value of a nonnegative rational is nonnegative. -/
theorem roundF64_nonneg {q : ℚ} (h : 0 ≤ q) : 0 ≤ roundF64 q := by
  rw [roundF64]
  split_ifs with h0 hneg
  · exact le_refl 0
  · exact absurd hneg (not_lt.mpr h)
  · simp only [roundF64Pos]
    split_ifs
    · exact div_nonneg
        (by exact_mod_cast roundHalfEven_nonneg (mul_nonneg h (Nat.cast_nonneg _)))
        (Nat.cast_nonneg _)
    · exact mul_nonneg
        (by exact_mod_cast roundHalfEven_nonneg (div_nonneg h (Nat.cast_nonneg _)))
        (Nat.cast_nonneg _)

/-- A character a hex digit test accepts is ASCII. -/
theorem hexDigitVal_ascii {c : Char} {v : Nat} (h : hexDigitVal c = some v) :
    c.toNat < 128 := by
  rw [hexDigitVal] at h
  split_ifs at h with h1 h2 h3
  · have hc : c.toNat ≤ 57 := h1.2
    omega
  · have hc : c.toNat ≤ 102 := h2.2
    omega
  · have hc : c.toNat ≤ 70 := h3.2
    omega

/-- Every character of a hex-decodable string is ASCII. -/
theorem hexDecodeList_chars : ∀ (l : List Char) (bs : List Nat),
    hexDecodeList l = some bs → ∀ c ∈ l, c.toNat < 128
  | [], _, _ => by
    intro c hc
    cases hc
  | [_], _, h => by simp [hexDecodeList] at h
  | c1 :: c2 :: rest, bs, h => by
    simp only [hexDecodeList] at h
    split at h
    · rename_i hi lo tail h1 h2 heq
      intro c hc
      simp only [List.mem_cons] at hc
      rcases hc with rfl | rfl | hc
      · exact hexDigitVal_ascii h1
      · exact hexDigitVal_ascii h2
      · exact hexDecodeList_chars rest tail heq c hc
    · cases h

/-- An ASCII string has as many bytes as characters. -/
theorem utf8Length_ascii : ∀ l : List Char, (∀ c ∈ l, c.toNat < 128) →
    utf8Length l = l.length
  | [], _ => rfl
  | c :: cs, h => by
    have h1 : charUtf8Size c = 1 := by
      rw [charUtf8Size, if_pos (h c (by simp))]
    simp [utf8Length, h1, utf8Length_ascii cs (fun d hd => h d (by simp [hd]))]
    omega

/-- On an ASCII string, slicing at any byte index up to the length lands on a
character boundary and equals dropping that many characters. -/
theorem sliceFromByte_ascii : ∀ (l : List Char) (k : Nat), (∀ c ∈ l, c.toNat < 128) →
    k ≤ l.length → sliceFromByte l k = some (l.drop k)
  | l, 0, _, _ => by simp [sliceFromByte]
  | [], k+1, _, hk => by simp at hk
  | c :: cs, k+1, hascii, hk => by
    have h1 : charUtf8Size c = 1 := by
      rw [charUtf8Size, if_pos (hascii c (by simp))]
    simp only [sliceFromByte, h1]
    rw [if_pos (by omega)]
    have ih := sliceFromByte_ascii cs k (fun d hd => hascii d (by simp [hd]))
      (by simpa using hk)
    simpa using ih

/-- For a hex-decodable `previous_hash` (necessarily ASCII) the byte-level
chunk slice never panics and produces the character-level chunk. -/
theorem chunkOfB_of_hex {ph : String} {pb : List Nat}
    (hpb : hexDecode ph = some pb) (d : ℚ) :
    chunkOfB ph d = some (chunkOf ph d) := by
  have hascii : ∀ c ∈ ph.data, c.toNat < 128 := hexDecodeList_chars ph.data pb hpb
  rw [chunkOfB, utf8Length_ascii ph.data hascii,
    sliceFromByte_ascii ph.data _ hascii (by omega)]
  rfl

/-- Non-strict comparison: `a` is at or below `b`. -/
def strLe (a b : String) : Prop := strLt b a = false

/-- The non-strict comparison is reflexive. -/
theorem strLe_refl (a : String) : strLe a a := strLt_irrefl a

/-- The non-strict comparison is transitive. -/
theorem strLe_trans {a b c : String} (h1 : strLe a b) (h2 : strLe b c) : strLe a c :=
  strLt_le_trans h1 h2

/-- Strict implies non-strict. -/
theorem strLe_of_lt {a b : String} (h : strLt a b = true) : strLe a b := strLt_asymm h

/-- Failed strict comparison gives the reverse non-strict one. -/
theorem strLe_of_not_lt {a b : String} (h : strLt a b = false) : strLe b a := h

/-- The non-strict comparison is antisymmetric. -/
theorem strLe_antisymm {a b : String} (h1 : strLe a b) (h2 : strLe b a) : a = b :=
  strLt_eq_of_not h2 h1

/-- Invariant of the mining loop: starting at `nonce` with accumulator
`(bh, bn, hc)`, the loop examines some `k ≤ fuel` nonces (`fuel` exactly when
no winner is found), adds `k` to the hash counter, only ever lowers the best
hash, keeps the best hash at or below the digest of every examined nonce,
keeps the pair `(best_hash, best_nonce)` either untouched or at an examined
nonce whose digest it is, and on success returns a hash that satisfies the
difficulty predicate and is the digest of the returned nonce. -/
theorem mineLoop_spec (pfx : List Nat) (chunk : String) (d : ℚ) :
    ∀ (fuel nonce : Nat) (bh : String) (bn hc : Nat) (r : MinerResult),
      mineLoop pfx chunk d bh bn hc nonce fuel = r →
      ∃ k, k ≤ fuel ∧
        r.hashes_computed = hc + k ∧
        (r.found = false → k = fuel) ∧
        strLe r.best_hash bh ∧
        (∀ m, nonce ≤ m → m < nonce + k → strLe r.best_hash (digestOf pfx m)) ∧
        ((r.best_hash = bh ∧ r.best_nonce = bn) ∨
          (nonce ≤ r.best_nonce ∧ r.best_nonce < nonce + k ∧
            digestOf pfx r.best_nonce = r.best_hash)) ∧
        (r.found = true → check_difficulty r.hash chunk d = true ∧
          r.hash = digestOf pfx r.nonce ∧ 1 ≤ k) := by
  intro fuel
  induction fuel with
  | zero =>
    intro nonce bh bn hc r hr
    simp only [mineLoop] at hr
    subst hr
    refine ⟨0, by omega, by simp, fun _ => rfl, strLe_refl bh, ?_, Or.inl ⟨rfl, rfl⟩, by simp⟩
    intro m h1 h2
    omega
  | succ fuel ih =>
    intro nonce bh bn hc r hr
    simp only [mineLoop] at hr
    by_cases hlt : strLt (digestOf pfx nonce) bh = true
    · simp only [hlt, if_true] at hr
      by_cases hcd : check_difficulty (digestOf pfx nonce) chunk d = true
      · rw [if_pos hcd] at hr
        subst hr
        refine ⟨1, by omega, by simp, by simp, strLe_of_lt hlt, ?_, ?_, ?_⟩
        · intro m h1 h2
          have hm : m = nonce := by omega
          subst hm
          exact strLe_refl _
        · exact Or.inr ⟨Nat.le_refl _, Nat.lt_succ_self _, rfl⟩
        · intro _
          exact ⟨hcd, rfl, by omega⟩
      · rw [if_neg hcd] at hr
        obtain ⟨k, hk, h2, h3, h4, h5, h6, h7⟩ := ih (nonce+1) _ _ _ r hr
        refine ⟨k + 1, by omega, by omega, fun hf => by rw [h3 hf], ?_, ?_, ?_, ?_⟩
        · exact strLe_trans h4 (strLe_of_lt hlt)
        · intro m h1 hm
          rcases Nat.eq_or_lt_of_le h1 with h1 | h1
          · rw [← h1]
            exact strLe_trans h4 (strLe_refl _)
          · exact h5 m (by omega) (by omega)
        · rcases h6 with ⟨hbh, hbn⟩ | ⟨hb1, hb2, hb3⟩
          · exact Or.inr ⟨by omega, by omega, by rw [hbn, hbh]⟩
          · exact Or.inr ⟨by omega, by omega, hb3⟩
        · intro hf
          obtain ⟨c1, c2, _⟩ := h7 hf
          exact ⟨c1, c2, by omega⟩
    · rw [Bool.not_eq_true] at hlt
      simp only [hlt, Bool.false_eq_true, if_false] at hr
      by_cases hcd : check_difficulty (digestOf pfx nonce) chunk d = true
      · rw [if_pos hcd] at hr
        subst hr
        refine ⟨1, by omega, by simp, by simp, strLe_refl bh, ?_, Or.inl ⟨rfl, rfl⟩, ?_⟩
        · intro m h1 h2
          have hm : m = nonce := by omega
          subst hm
          exact strLe_of_not_lt hlt
        · intro _
          exact ⟨hcd, rfl, by omega⟩
      · rw [if_neg hcd] at hr
        obtain ⟨k, hk, h2, h3, h4, h5, h6, h7⟩ := ih (nonce+1) _ _ _ r hr
        refine ⟨k + 1, by omega, by omega, fun hf => by rw [h3 hf], h4, ?_, ?_, ?_⟩
        · intro m h1 hm
          rcases Nat.eq_or_lt_of_le h1 with h1 | h1
          · rw [← h1]
            exact strLe_trans h4 (strLe_of_not_lt hlt)
          · exact h5 m (by omega) (by omega)
        · rcases h6 with ⟨hbh, hbn⟩ | ⟨hb1, hb2, hb3⟩
          · exact Or.inl ⟨hbh, hbn⟩
          · exact Or.inr ⟨by omega, by omega, hb3⟩
        · intro hf
          obtain ⟨c1, c2, _⟩ := h7 hf
          exact ⟨c1, c2, by omega⟩

/-- When all three input fields decode, `build_block_content`'s byte layout is
the mining prefix with the little-endian nonce appended. -/
theorem buildBlockBytes_eq {ph pa mr : String} {ts : Nat} {d : ℚ} {n : Nat}
    {ab pb mb : List Nat} (hab : string_to_bytes pa = .ok ab)
    (hpb : hexDecode ph = some pb) (hmb : hexDecode mr = some mb) :
    buildBlockBytes ph pa mr ts d n = .ok (minePfx ab pb mb ts d ++ leBytes4 n) := by
  simp only [buildBlockBytes, hab, hpb, hmb, minePfx, List.append_assoc]

/-- Hex decoding produces exactly half as many bytes as input characters. -/
theorem hexDecodeList_length : ∀ (l : List Char) (bs : List Nat),
    hexDecodeList l = some bs → 2 * bs.length = l.length
  | [], bs, h => by
    simp only [hexDecodeList, Option.some.injEq] at h
    subst h
    rfl
  | [_], _, h => by simp [hexDecodeList] at h
  | c1 :: c2 :: rest, bs, h => by
    simp only [hexDecodeList] at h
    split at h
    · rename_i hi lo tail _ _ heq
      have ih := hexDecodeList_length rest tail heq
      cases h
      simp only [List.length_cons]
      omega
    · cases h

/-- C9: for every valid template and nonce, the bytes hashed by `mine_range`
for that nonce (the precomputed prefix with the little-endian nonce appended)
are exactly the bytes produced by `build_block_content` for the same template
and nonce: the two entry points embed the same encoding. -/
theorem mine_build_same_encoding (ph pa mr : String) (ts : Nat) (d : ℚ) (n : Nat)
    (ab pb mb : List Nat) (hab : string_to_bytes pa = .ok ab)
    (hpb : hexDecode ph = some pb) (hmb : hexDecode mr = some mb) :
    buildBlockBytes ph pa mr ts d n = .ok (minePfx ab pb mb ts d ++ leBytes4 n) :=
  buildBlockBytes_eq hab hpb hmb

/-- Witness for C9 at a concrete template. -/
theorem mine_build_same_encoding_witness :
    buildBlockBytes ("") ("") ("") 0 0 0 = .ok (minePfx [] [] [] 0 0 ++ leBytes4 0) :=
  mine_build_same_encoding ("") ("") ("") 0 0 0 [] [] [] rfl rfl rfl

/-- C10: on an empty search range (`end ≤ nonce_start`, e.g. when
`nonce_end ≤ nonce_start` or `max_hashes = 0`) `mine_range` returns
`found = false`, `hashes_computed = 0`, `best_nonce = nonce_start`, and the
all-`f` sentinel as `best_hash`; no nonce is examined. -/
theorem mine_range_empty (ph pa mr : String) (ts : Nat) (d : ℚ) (ns ne mh : Nat)
    (ab pb mb : List Nat) (hab : string_to_bytes pa = .ok ab)
    (hpb : hexDecode ph = some pb) (hmb : hexDecode mr = some mb)
    (hempty : searchEnd ne ns mh ≤ ns) :
    mine_range ph pa mr ts d ns ne mh =
      some (.ok ⟨false, ns, fRepeat, 0, ns, fRepeat⟩) := by
  simp only [mine_range, hab, chunkOfB_of_hex hpb d, hpb, hmb]
  have h0 : searchEnd ne ns mh - ns = 0 := by omega
  rw [h0]
  rfl

/-- Witness for C10 at a concrete empty range. -/
theorem mine_range_empty_witness :
    mine_range ("") ("") ("") 0 0 5 3 7 =
      some (.ok ⟨false, 5, fRepeat, 0, 5, fRepeat⟩) :=
  mine_range_empty ("") ("") ("") 0 0 5 3 7 [] [] [] rfl rfl rfl (by decide)

/-- C7: address decoding attempts hex first and returns its bytes on success;
on hex failure it attempts base58; when both fail `mine_range` returns the
`Invalid address format` error without attempting the search. -/
theorem address_decode_policy :
    (∀ (a : String) (bs : List Nat), hexDecode a = some bs →
        string_to_bytes a = .ok bs) ∧
    (∀ (a : String) (bs : List Nat), hexDecode a = none → base58Decode a = some bs →
        string_to_bytes a = .ok bs) ∧
    (∀ a : String, hexDecode a = none → base58Decode a = none →
        string_to_bytes a = .error ("Invalid address format")) ∧
    (∀ (ph a mr : String) (ts : Nat) (d : ℚ) (ns ne mh : Nat) (e : String),
        string_to_bytes a = .error e →
        mine_range ph a mr ts d ns ne mh = some (.error e)) := by
  refine ⟨?_, ?_, ?_, ?_⟩
  · intro a bs h
    simp [string_to_bytes, h]
  · intro a bs h1 h2
    simp [string_to_bytes, h1, h2]
  · intro a h1 h2
    simp [string_to_bytes, h1, h2]
  · intro ph a mr ts d ns ne mh e h
    simp [mine_range, h]

/-- Witness for C7: the string `0` is neither hex (odd length) nor base58
(not in the alphabet), and the search errors out. -/
theorem address_decode_policy_witness :
    mine_range ("") ("0") ("") 0 0 0 0 0 = some (.error ("Invalid address format")) :=
  address_decode_policy.2.2.2 ("") ("0") ("") 0 0 0 0 0 ("Invalid address format")
    (address_decode_policy.2.2.1 ("0") (by decide) (by decide))

/-- C5: a search never examines a nonce at or beyond `nonce_end`, never
examines (nor reports) more than `max_hashes` hashes, and the loop bound is
computed with saturating arithmetic: at `nonce_start = 0xFFFFFFF0` and
`max_hashes = 0xFFFFFFFF` the bound is `min nonce_end u32::MAX`, with no
wrap-around. -/
theorem search_bounds :
    (∀ (ph pa mr : String) (ts : Nat) (d : ℚ) (ns ne mh : Nat) (r : MinerResult),
        mine_range ph pa mr ts d ns ne mh = some (.ok r) →
        r.hashes_computed ≤ mh ∧
        (∀ m, ns ≤ m → m < ns + r.hashes_computed → m < ne)) ∧
    (∀ ne : Nat, searchEnd ne 4294967280 4294967295 = min ne 4294967295) := by
  constructor
  · intro ph pa mr ts d ns ne mh r h
    simp only [mine_range] at h
    split at h
    · exact absurd h (by simp)
    · split at h
      · exact absurd h (by simp)
      · split at h
        · exact absurd h (by simp)
        · split at h
          · exact absurd h (by simp)
          · obtain ⟨k, hk, h2, _, _, _, _⟩ :=
              mineLoop_spec _ _ _ _ _ _ _ _ _ (Except.ok.inj (Option.some.inj h))
            have hse : searchEnd ne ns mh ≤ ns + mh ∧ searchEnd ne ns mh ≤ ne := by
              simp only [searchEnd, satAdd32]
              omega
            constructor
            · omega
            · intro m hm1 hm2
              omega
  · intro ne
    simp only [searchEnd, satAdd32]
    omega

/-- Witness for C5 at a concrete search. -/
theorem search_bounds_witness :
    (⟨false, 5, fRepeat, 0, 5, fRepeat⟩ : MinerResult).hashes_computed ≤ 7 ∧
      (∀ m, 5 ≤ m → m < 5 + (⟨false, 5, fRepeat, 0, 5, fRepeat⟩ : MinerResult).hashes_computed →
        m < 3) :=
  search_bounds.1 ("") ("") ("") 0 0 5 3 7 ⟨false, 5, fRepeat, 0, 5, fRepeat⟩ (by rfl)

/-- C6 (amended): with a decodable address, and — for `mine_range` — provided
the difficulty-chunk byte slice of `previous_hash` lands on a character
boundary (otherwise the program panics before any decoding, second conjunct),
`mine_range` and `build_block_content` fail with an invalid-hex-field error
exactly when `previous_hash` or `merkle_root` is not decodable hexadecimal
(odd length or a non-hex character); the decoded byte length is never
checked. -/
theorem hexfield_error_iff :
    (∀ (ph pa mr : String) (ts : Nat) (d : ℚ) (ns ne mh : Nat) (ab : List Nat)
        (ck : String), string_to_bytes pa = .ok ab → chunkOfB ph d = some ck →
        ((∃ e, mine_range ph pa mr ts d ns ne mh = some (.error e) ∧
            (e = ("Invalid previous_hash") ∨ e = ("Invalid merkle_root"))) ↔
          (hexDecode ph = none ∨ hexDecode mr = none))) ∧
    (∀ (ph pa mr : String) (ts : Nat) (d : ℚ) (ns ne mh : Nat) (ab : List Nat),
        string_to_bytes pa = .ok ab → chunkOfB ph d = none →
        mine_range ph pa mr ts d ns ne mh = none) ∧
    (∀ (ph pa mr : String) (ts : Nat) (d : ℚ) (n : Nat) (ab : List Nat),
        string_to_bytes pa = .ok ab →
        ((∃ e, buildBlockBytes ph pa mr ts d n = .error e ∧
            (e = ("Invalid previous_hash") ∨ e = ("Invalid merkle_root"))) ↔
          (hexDecode ph = none ∨ hexDecode mr = none))) := by
  refine ⟨?_, ?_, ?_⟩
  · intro ph pa mr ts d ns ne mh ab ck hab hck
    cases hph : hexDecode ph with
    | none =>
      refine iff_of_true ⟨("Invalid previous_hash"), ?_, Or.inl rfl⟩ (Or.inl rfl)
      simp only [mine_range, hab, hck, hph]
    | some pb =>
      cases hmr : hexDecode mr with
      | none =>
        refine iff_of_true ⟨("Invalid merkle_root"), ?_, Or.inr rfl⟩ (Or.inr rfl)
        simp only [mine_range, hab, hck, hph, hmr]
      | some mb =>
        apply iff_of_false
        · rintro ⟨e, he, _⟩
          simp [mine_range, hab, hck, hph, hmr] at he
        · rintro (h | h) <;> cases h
  · intro ph pa mr ts d ns ne mh ab hab hck
    simp only [mine_range, hab, hck]
  · intro ph pa mr ts d n ab hab
    cases hph : hexDecode ph with
    | none =>
      refine iff_of_true ⟨("Invalid previous_hash"), ?_, Or.inl rfl⟩ (Or.inl rfl)
      simp only [buildBlockBytes, hab, hph]
    | some pb =>
      cases hmr : hexDecode mr with
      | none =>
        refine iff_of_true ⟨("Invalid merkle_root"), ?_, Or.inr rfl⟩ (Or.inr rfl)
        simp only [buildBlockBytes, hab, hph, hmr]
      | some mb =>
        apply iff_of_false
        · rintro ⟨e, he, _⟩
          simp [buildBlockBytes, hab, hph, hmr] at he
        · rintro (h | h) <;> cases h

/-- Witness for C6 (amended) at a concrete malformed `previous_hash`. -/
theorem hexfield_error_iff_witness :
    (∃ e, mine_range ("xy") ("") ("") 0 0 0 0 0 = some (.error e) ∧
        (e = ("Invalid previous_hash") ∨ e = ("Invalid merkle_root"))) ↔
      (hexDecode ("xy") = none ∨ hexDecode ("") = none) :=
  hexfield_error_iff.1 ("xy") ("") ("") 0 0 0 0 0 [] ("") rfl (by rfl)

/-- Counterexample to C6 as stated: `previous_hash = "1234"` decodes to two
bytes, not 32, yet `mine_range` accepts it and returns a result rather than an
invalid-hex-field error. -/
theorem hexfield_error_counterexample :
    hexDecode ("1234") = some [18, 52] ∧
      mine_range ("1234") ("00") ("") 0 0 0 0 0 =
        some (.ok ⟨false, 0, fRepeat, 0, 0, fRepeat⟩) := by
  exact ⟨rfl, rfl⟩

/-- C8 (amended): for 64-character hex `previous_hash`/`merkle_root` and a
decoded address of length `L`, the encoded content is exactly
`32 + L + 32 + 4 + 2 + 4` bytes plus one when `L = 33`; a version byte `0x02`
is prepended exactly when `L = 33` (so the content then begins with `0x02`),
and for any other address length no version byte is prepended — the content
starts directly with the previous-hash bytes (whose own first byte may
coincidentally be `0x02`). -/
theorem encoding_layout (ph pa mr : String) (ts : Nat) (d : ℚ) (n : Nat)
    (ab pb mb l : List Nat) (hab : string_to_bytes pa = .ok ab)
    (hpb : hexDecode ph = some pb) (hph64 : ph.data.length = 64)
    (hmb : hexDecode mr = some mb) (hmr64 : mr.data.length = 64)
    (hl : buildBlockBytes ph pa mr ts d n = .ok l) :
    l.length = 32 + ab.length + 32 + 4 + 2 + 4 + (if ab.length = 33 then 1 else 0) ∧
    (ab.length = 33 → l.head? = some 2) ∧
    (ab.length ≠ 33 →
      l = pb ++ ab ++ mb ++ leBytes4 ts ++ leBytes2 (u16Cast (roundF64 (d * 10))) ++
        leBytes4 n) := by
  have hpb32 : pb.length = 32 := by
    have := hexDecodeList_length ph.data pb hpb
    omega
  have hmb32 : mb.length = 32 := by
    have := hexDecodeList_length mr.data mb hmb
    omega
  rw [buildBlockBytes_eq hab hpb hmb] at hl
  have hl' := Except.ok.inj hl
  subst hl'
  refine ⟨?_, ?_, ?_⟩
  · simp only [minePfx, List.length_append, hpb32, hmb32, leBytes4, leBytes2]
    by_cases h33 : ab.length = 33 <;> simp [h33]
  · intro h33
    simp [minePfx, h33]
  · intro h33
    simp [minePfx, h33, List.append_assoc]

/-- Witness for C8 (amended) at a concrete template with a 33-byte address. -/
theorem encoding_layout_witness :
    ∃ l, buildBlockBytes (String.mk (List.replicate 64 ('0')))
        (String.mk (List.replicate 66 ('0'))) (String.mk (List.replicate 64 ('0')))
        0 0 0 = .ok l ∧
      l.length = 32 + 33 + 32 + 4 + 2 + 4 + 1 ∧ l.head? = some 2 := by
  have h := encoding_layout (String.mk (List.replicate 64 ('0')))
    (String.mk (List.replicate 66 ('0'))) (String.mk (List.replicate 64 ('0')))
    0 0 0 (List.replicate 33 0) (List.replicate 32 0) (List.replicate 32 0)
    (minePfx (List.replicate 33 0) (List.replicate 32 0) (List.replicate 32 0) 0 0 ++ leBytes4 0)
    (by rfl) (by rfl) (by decide) (by rfl) (by decide) (by rfl)
  refine ⟨_, by rfl, ?_, h.2.1 (by decide)⟩
  rw [h.1]
  decide

/-- Counterexample to C8 as stated: with a 20-byte address and a previous hash
whose first byte is `0x02`, the content begins with `0x02` although the
address length is not 33 — "begins with `0x02`" is not equivalent to
`L = 33`. -/
theorem encoding_layout_counterexample :
    (string_to_bytes (String.mk (List.replicate 40 ('0')))).map List.length = .ok 20 ∧
    (buildBlockBytes (String.mk ('0' :: '2' :: List.replicate 62 ('0')))
        (String.mk (List.replicate 40 ('0'))) (String.mk (List.replicate 64 ('0')))
        0 0 0).map List.head? = .ok (some 2) := by
  exact ⟨rfl, rfl⟩

/-- C1: whenever `mine_range` reports `found = true`, the returned hash
satisfies the difficulty predicate for the chunk derived from `previous_hash`
and the difficulty, and is the lowercase hex SHA-256 digest of the block
content encoded for this template with the returned nonce. -/
theorem mine_range_found_spec (ph pa mr : String) (ts : Nat) (d : ℚ)
    (ns ne mh : Nat) (r : MinerResult)
    (h : mine_range ph pa mr ts d ns ne mh = some (.ok r)) (hf : r.found = true) :
    check_difficulty r.hash (chunkOf ph d) d = true ∧
    ∃ content, buildBlockBytes ph pa mr ts d r.nonce = .ok content ∧
      r.hash = hexEncode (sha256 content) := by
  cases hab : string_to_bytes pa with
  | error e =>
    simp [mine_range, hab] at h
  | ok ab =>
    cases hck : chunkOfB ph d with
    | none =>
      simp [mine_range, hab, hck] at h
    | some ck =>
      cases hpb : hexDecode ph with
      | none =>
        simp [mine_range, hab, hck, hpb] at h
      | some pb =>
        cases hmb : hexDecode mr with
        | none =>
          simp [mine_range, hab, hck, hpb, hmb] at h
        | some mb =>
          have hckv : ck = chunkOf ph d := by
            have h1 := chunkOfB_of_hex hpb d
            rw [hck] at h1
            exact Option.some.inj h1
          simp only [mine_range, hab, hck, hpb, hmb] at h
          obtain ⟨k, _, _, _, _, _, _, h7⟩ :=
            mineLoop_spec _ _ _ _ _ _ _ _ _ (Except.ok.inj (Option.some.inj h))
          obtain ⟨hcd, hdig, _⟩ := h7 hf
          rw [hckv] at hcd
          exact ⟨hcd, _, buildBlockBytes_eq hab hpb hmb, hdig⟩

unseal Rat.sub Rat.mul in
set_option maxRecDepth 100000 in
/-- Witness for C1: a difficulty-0 search over one nonce succeeds at once. -/
theorem mine_range_found_spec_witness :
    check_difficulty
        ("01d448afd928065458cf670b60f5a594d735af0172c8d67f22a81680132681ca")
        (chunkOf ("") 0) 0 = true ∧
    ∃ content, buildBlockBytes ("") ("") ("") 0 0 0 = .ok content ∧
      ("01d448afd928065458cf670b60f5a594d735af0172c8d67f22a81680132681ca") =
        hexEncode (sha256 content) :=
  mine_range_found_spec ("") ("") ("") 0 0 0 1 1
    ⟨true, 0, ("01d448afd928065458cf670b60f5a594d735af0172c8d67f22a81680132681ca"), 1, 0,
      ("01d448afd928065458cf670b60f5a594d735af0172c8d67f22a81680132681ca")⟩
    (by rfl) rfl

/-- C4: among the nonces a search examined (there is one for each counted
hash, starting at `nonce_start`), the reported `best_hash` is at or below the
digest of every one of them, and `best_nonce` is an examined nonce whose
digest is exactly `best_hash`. -/
theorem best_hash_spec (ph pa mr : String) (ts : Nat) (d : ℚ) (ns ne mh : Nat)
    (r : MinerResult) (ab pb mb : List Nat)
    (hab : string_to_bytes pa = .ok ab) (hpb : hexDecode ph = some pb)
    (hmb : hexDecode mr = some mb)
    (h : mine_range ph pa mr ts d ns ne mh = some (.ok r))
    (hpos : 0 < r.hashes_computed) :
    (∀ m, ns ≤ m → m < ns + r.hashes_computed →
        strLe r.best_hash (digestOf (minePfx ab pb mb ts d) m)) ∧
    ns ≤ r.best_nonce ∧ r.best_nonce < ns + r.hashes_computed ∧
    digestOf (minePfx ab pb mb ts d) r.best_nonce = r.best_hash := by
  simp only [mine_range, hab, chunkOfB_of_hex hpb d, hpb, hmb] at h
  obtain ⟨k, hk, h2, h3, h4, h5, h6, h7⟩ :=
    mineLoop_spec _ _ _ _ _ _ _ _ _ (Except.ok.inj (Option.some.inj h))
  have hks : r.hashes_computed = k := by omega
  refine ⟨fun m hm1 hm2 => h5 m hm1 (by omega), ?_⟩
  rcases h6 with ⟨hbh, hbn⟩ | ⟨hb1, hb2, hb3⟩
  · have hns : strLe r.best_hash (digestOf (minePfx ab pb mb ts d) ns) :=
      h5 ns (Nat.le_refl ns) (by omega)
    have hsf : strLe (digestOf (minePfx ab pb mb ts d) ns) r.best_hash := by
      rw [hbh]
      exact digest_not_gt _ ns
    refine ⟨by omega, by omega, ?_⟩
    rw [hbn]
    exact strLe_antisymm hsf hns
  · exact ⟨hb1, by omega, hb3⟩

unseal Rat.sub Rat.mul in
set_option maxRecDepth 100000 in
/-- Witness for C4 at a concrete one-nonce search. -/
theorem best_hash_spec_witness :
    (∀ m, 0 ≤ m →
        m < 0 + (⟨true, 0,
            ("01d448afd928065458cf670b60f5a594d735af0172c8d67f22a81680132681ca"), 1, 0,
            ("01d448afd928065458cf670b60f5a594d735af0172c8d67f22a81680132681ca")⟩ :
          MinerResult).hashes_computed →
        strLe (⟨true, 0,
            ("01d448afd928065458cf670b60f5a594d735af0172c8d67f22a81680132681ca"), 1, 0,
            ("01d448afd928065458cf670b60f5a594d735af0172c8d67f22a81680132681ca")⟩ :
          MinerResult).best_hash (digestOf (minePfx [] [] [] 0 0) m)) ∧
    0 ≤ (⟨true, 0,
        ("01d448afd928065458cf670b60f5a594d735af0172c8d67f22a81680132681ca"), 1, 0,
        ("01d448afd928065458cf670b60f5a594d735af0172c8d67f22a81680132681ca")⟩ :
      MinerResult).best_nonce ∧
    (⟨true, 0,
        ("01d448afd928065458cf670b60f5a594d735af0172c8d67f22a81680132681ca"), 1, 0,
        ("01d448afd928065458cf670b60f5a594d735af0172c8d67f22a81680132681ca")⟩ :
      MinerResult).best_nonce < 0 + 1 ∧
    digestOf (minePfx [] [] [] 0 0) 0 =
      ("01d448afd928065458cf670b60f5a594d735af0172c8d67f22a81680132681ca") :=
  best_hash_spec ("") ("") ("") 0 0 0 1 1 _ [] [] [] rfl rfl rfl (by rfl) (by decide)

/-- C2: for nonnegative difficulty (and any hash a real machine can hold),
`check_difficulty` agrees exactly with the spec's predicate: prefix match,
immediate success on zero fractional part, otherwise membership of the
character at `idx = floor(difficulty)` among the first `ceil(16*(1-frac))`
hex digits, failing when `idx` is beyond the string; in particular at
difficulty `4.5` it requires the prefix match and the character at position 4
to be one of `01234567`. -/
theorem check_difficulty_spec :
    (∀ (hash_hex chunk : String) (d : ℚ), 0 ≤ d →
        hash_hex.data.length < 4294967295 →
        check_difficulty hash_hex chunk d = satisfiesSpec hash_hex chunk d) ∧
    (∀ hash_hex chunk : String,
        check_difficulty hash_hex chunk (9/2) =
          (strStartsWith hash_hex chunk &&
            (match hash_hex.data[4]? with
              | some c => (("01234567").data).contains c
              | none => false))) := by
  constructor
  · intro hash chunk d hd hlen
    simp only [check_difficulty, satisfiesSpec]
    cases hsw : strStartsWith hash chunk
    · simp
    · simp only [if_true]
      have htr : ratTrunc d = ⌊d⌋ := ratTrunc_eq_floor hd
      have hr1 : rem1 d = d - ((⌊d⌋ : ℤ) : ℚ) := rem1_eq hd
      rw [hr1, htr]
      by_cases h0 : d - ((⌊d⌋ : ℤ) : ℚ) = 0
      · rw [h0]
        simp
      · have hpos : 0 < d - ((⌊d⌋ : ℤ) : ℚ) :=
          lt_of_le_of_ne (sub_nonneg.mpr (Int.floor_le d)) (Ne.symm h0)
        rw [if_pos hpos, if_neg h0]
        have hcount : usizeCast (ratCeil (16 * (1 - (d - ((⌊d⌋ : ℤ) : ℚ))))) =
            (⌈(16 : ℚ) * (1 - (d - ((⌊d⌋ : ℤ) : ℚ)))⌉).toNat := by
          rw [ratCeil_eq, usizeCast]
          have hle : ⌈(16 : ℚ) * (1 - (d - ((⌊d⌋ : ℤ) : ℚ)))⌉ ≤ 16 := by
            apply Int.ceil_le.mpr
            push_cast
            nlinarith
          omega
        rw [hcount]
        by_cases hidx : (⌊d⌋).toNat ≤ 4294967295
        · have h1 : usizeCast (⌊d⌋) = (⌊d⌋).toNat := by
            rw [usizeCast]
            omega
          rw [h1]
        · have h1 : usizeCast (⌊d⌋) = 4294967295 := by
            rw [usizeCast]
            omega
          rw [h1]
          have h2 : hash.data[(4294967295 : Nat)]? = none :=
            List.getElem?_eq_none (by omega)
          have h3 : hash.data[(⌊d⌋).toNat]? = none :=
            List.getElem?_eq_none (by omega)
          rw [h2, h3]
  · intro hash chunk
    simp only [check_difficulty]
    have h0 : (0 : ℚ) ≤ 9/2 := by norm_num
    have hfl : (⌊(9/2 : ℚ)⌋ : ℤ) = 4 := by norm_num
    have htr : ratTrunc (9/2 : ℚ) = 4 := by rw [ratTrunc_eq_floor h0, hfl]
    have hr1 : rem1 (9/2 : ℚ) = 1/2 := by
      rw [rem1, htr]
      norm_num
    have hpos : (0 : ℚ) < 1/2 := by norm_num
    have hceil : ratCeil (16 * (1 - (1/2 : ℚ))) = 8 := by
      rw [ratCeil_eq]
      norm_num
    rw [hr1, if_pos hpos, hceil, htr]
    have husz8 : usizeCast 8 = 8 := by decide
    have husz4 : usizeCast 4 = 4 := by decide
    rw [husz8, husz4]
    have htake : hexCharset.take 8 = (("01234567").data) := by decide
    rw [htake]
    cases hsw : strStartsWith hash chunk
    · simp
    · simp

/-- Witness for C2 at a concrete hash, chunk and difficulty. -/
theorem check_difficulty_spec_witness :
    check_difficulty ("ab") ("a") (1/2) = satisfiesSpec ("ab") ("a") (1/2) :=
  check_difficulty_spec.1 ("ab") ("a") (1/2) (by norm_num) (by decide)

/-- C3 (amended): the two bytes following the timestamp field — in both the
`build_block_content` bytes and the per-nonce content hashed by `mine_range`
(the same list, by the first conjunct) — are the little-endian encoding of the
correctly rounded `f64` product `difficulty * 10.0` truncated toward zero (the
value of the Rust `as u16` cast), not of `round(difficulty * 10)`. -/
theorem difficulty_field_spec (ph pa mr : String) (ts : Nat) (d : ℚ) (n : Nat)
    (ab pb mb : List Nat) (hab : string_to_bytes pa = .ok ab)
    (hpb : hexDecode ph = some pb) (hpb32 : pb.length = 32)
    (hmb : hexDecode mr = some mb) (hmb32 : mb.length = 32)
    (hd : 0 ≤ d) (hdlt : roundF64 (d * 10) < 65536) :
    ∃ l, buildBlockBytes ph pa mr ts d n = .ok l ∧
      l = minePfx ab pb mb ts d ++ leBytes4 n ∧
      (l.drop ((if ab.length = 33 then 1 else 0) + 32 + ab.length + 32 + 4)).take 2 =
        leBytes2 ((⌊roundF64 (d * 10)⌋).toNat) := by
  refine ⟨_, buildBlockBytes_eq hab hpb hmb, rfl, ?_⟩
  have hnn : (0 : ℚ) ≤ roundF64 (d * 10) :=
    roundF64_nonneg (mul_nonneg hd (by norm_num))
  have hu : u16Cast (roundF64 (d * 10)) = (⌊roundF64 (d * 10)⌋).toNat := by
    rw [u16Cast, ratTrunc_eq_floor hnn]
    have h1 : ⌊roundF64 (d * 10)⌋ < 65536 := by
      apply Int.floor_lt.mpr
      push_cast
      exact hdlt
    omega
  have hsplit : minePfx ab pb mb ts d ++ leBytes4 n =
      ((if ab.length = 33 then [2] else []) ++ pb ++ ab ++ mb ++ leBytes4 ts) ++
        (leBytes2 (u16Cast (roundF64 (d * 10))) ++ leBytes4 n) := by
    simp [minePfx, List.append_assoc]
  rw [hsplit]
  have hlen : ((if ab.length = 33 then [2] else []) ++ pb ++ ab ++ mb ++ leBytes4 ts).length =
      (if ab.length = 33 then 1 else 0) + 32 + ab.length + 32 + 4 := by
    by_cases h33 : ab.length = 33 <;> simp [h33, hpb32, hmb32, leBytes4] <;> omega
  rw [← hlen, List.drop_left, hu]
  simp [leBytes2]

unseal Rat.mul Rat.inv Rat.sub in
/-- Witness for C3 (amended) at difficulty `3/16` (an exact `f64` value whose
product with ten is also exact: `roundF64 (15/8) = 15/8`). -/
theorem difficulty_field_spec_witness :
    ∃ l, buildBlockBytes (String.mk (List.replicate 64 ('0')))
        (String.mk (List.replicate 40 ('0'))) (String.mk (List.replicate 64 ('0')))
        0 (3/16) 0 = .ok l ∧
      l = minePfx (List.replicate 20 0) (List.replicate 32 0) (List.replicate 32 0) 0 (3/16) ++
        leBytes4 0 ∧
      (l.drop ((if (List.replicate 20 (0:Nat)).length = 33 then 1 else 0) + 32 +
          (List.replicate 20 (0:Nat)).length + 32 + 4)).take 2 =
        leBytes2 ((⌊roundF64 ((3/16 : ℚ) * 10)⌋).toNat) :=
  difficulty_field_spec (String.mk (List.replicate 64 ('0')))
    (String.mk (List.replicate 40 ('0'))) (String.mk (List.replicate 64 ('0')))
    0 (3/16) 0 (List.replicate 20 0) (List.replicate 32 0) (List.replicate 32 0)
    (by rfl) (by rfl) (by decide) (by rfl) (by decide) (by norm_num) (by decide)

unseal Rat.mul Rat.inv Rat.sub in
/-- Counterexample to C3 as stated: at difficulty `3/16` (exactly representable
in binary floating point; the `f64` product `0.1875 * 10.0 = 1.875` is exact,
so `roundF64` leaves it unchanged) the encoded field holds the truncated value
`1` as bytes `[1, 0]`, while `round(difficulty * 10) = 2`.  The last two
conjuncts check the model against the `f64` product at the nearest `f64` to
`0.3` (`5404319552844595 * 2^-54`): the product rounds up to exactly `3`, so
the program and the model store `3` there — the amendment only differs from
`round` where the rounded product's fractional part is nonzero. -/
theorem difficulty_field_counterexample :
    (buildBlockBytes (String.mk (List.replicate 64 ('0')))
        (String.mk (List.replicate 40 ('0'))) (String.mk (List.replicate 64 ('0')))
        0 (3/16) 0).map (fun l => (l.drop 88).take 2) = .ok [1, 0] ∧
    round ((3/16 : ℚ) * 10) = 2 ∧ (1 : Nat) ≠ 2 ∧
    u16Cast (roundF64 ((5404319552844595/18014398509481984 : ℚ) * 10)) = 3 ∧
    round ((5404319552844595/18014398509481984 : ℚ) * 10) = 3 := by
  refine ⟨by rfl, ?_, by decide, by decide, ?_⟩
  · rw [round_eq]
    norm_num
  · rw [round_eq]
    norm_num
